import Mathlib

/-!
Verification of the aTRAM preprocessor core (files `format_sra.py` and
`atram_preprocessor.py`): a shallow embedding of the ingestion state machine
(`load_seqs`), the sqlite batch writer (`bulk_insert`), the shard partitioner
(`assign_seqs_to_shards`), and the FASTA shard exporters (`create_blast_db`,
`fill_blast_fasta`), together with theorems about them.

Strings are embedded as `List Char`.  Lines read from a file keep their
trailing `'\n'`, exactly as Python's file iteration yields them.  Python's
`str.isalpha`, `str.rstrip` and the regex class `\s` are modelled over the
ASCII range (the repository's inputs are ASCII sequence-read files).
-/

namespace ATram

/-- Python whitespace for `str.rstrip` and the regex class `\s`
(ASCII range: space, tab, newline, carriage return, vertical tab, form feed). -/
def isPySpace (c : Char) : Bool :=
  c = ' ' || c = '\t' || c = '\n' || c = '\r' || c = '\x0b' || c = '\x0c'

/-- The character class `[\s\/_]` of the regex
`FRAGMENT = re.compile(r'^ [>@] \s* ( .* ) ( [\s\/_] [12] )', re.VERBOSE)`
in `format_sra.py`. -/
def sepClass (c : Char) : Bool := isPySpace c || c = '/' || c = '_'

/-- The character class `[12]` of the `FRAGMENT` regex. -/
def isOneTwo (c : Char) : Bool := c = '1' || c = '2'

/-- Python `str.rstrip()`: drop trailing whitespace. -/
def pyRstrip (s : List Char) : List Char :=
  (s.reverse.dropWhile isPySpace).reverse

/-- Index of the last position `i` of `s` such that `s[i]` is in `[\s\/_]`
and `s[i+1]` is in `[12]` — the split point chosen by the greedy group
`( .* )` of the `FRAGMENT` regex. -/
def lastPairPos : List Char → Option Nat
  | a :: b :: rest =>
    match lastPairPos (b :: rest) with
    | some i => some (i + 1)
    | none => if sepClass a && isOneTwo b then some 0 else none
  | _ => none

/-- Length of the maximal whitespace prefix matched by the greedy `\s*`. -/
def wsPrefixLen : List Char → Nat
  | [] => 0
  | c :: rest => if isPySpace c then wsPrefixLen rest + 1 else 0

/-- `FRAGMENT.match(line)` applied to `s0 = line[1:]` (the branch in
`load_seqs` has already checked `line[0] in ['>', '@']`, which the regex's
`[>@]` re-checks).  The regex engine backtracks `\s*` from its maximal
length and, inside that, takes the greedy `( .* )` as long as possible, so
the separator/digit group is the LAST such pair of `s0` and the whitespace
group is the maximal whitespace prefix not overrunning that pair.  Faithful
to Python `re` for the lines this program reads, in which `'\n'` occurs
only as the final character (`.` does not match `'\n'`). -/
def fragMatch0 (s0 : List Char) : Option (List Char × List Char) :=
  match lastPairPos s0 with
  | none => none
  | some i =>
    let a := min (wsPrefixLen s0) i
    some ((s0.drop a).take (i - a), (s0.drop i).take 2)

/-- A value stored in the `frag` column.  `load_seqs` initialises
`frag = 0` (a Python `int`); every header line overwrites it with a string.
A record inserted before any header was seen carries the integer `0`. -/
inductive FragVal where
  | intZero : FragVal
  | str : List Char → FragVal
deriving DecidableEq, Repr

/-- A row of the `frags` table: `(frag, frag_end, seq)`. -/
structure SeqRecord where
  frag : FragVal
  fragEnd : List Char
  seq : List Char
deriving DecidableEq, Repr

/-- Header handling of `load_seqs` (lines 40–47 of `format_sra.py`): on a
`'>'`/`'@'` line, if `FRAGMENT` matches, `frag`/`frag_end` are the two
groups; otherwise `frag = line[1:]` (trailing newline included) and
`frag_end = ''`. -/
def parseHeaderRec (line : List Char) : FragVal × List Char :=
  match fragMatch0 line.tail with
  | some (f, e) => (FragVal.str f, e)
  | none => (FragVal.str line.tail, [])

/-- `DEFAULT_BATCH_SIZE = 1e7`. -/
def batchSize : Nat := 10000000

/-- `bulk_insert(db_conn, recs)`: `if recs:` insert the batch and commit,
otherwise do nothing.  The database is modelled as the ordered list of
inserted rows. -/
def bulk_insert (dbRecs recs : List SeqRecord) : List SeqRecord :=
  if recs = [] then dbRecs else dbRecs ++ recs

/-- Events issued against the sqlite connection, used to state the
write-then-index ordering of `__main__`. -/
inductive DbEvent where
  | dropIndex | dropTable | createTable
  | insertBatch : Nat → DbEvent
  | commit
  | createIndex
  | selectCount | selectOffsets | selectShard
deriving DecidableEq, Repr

/-- The statements `bulk_insert` issues: nothing for an empty batch,
one `executemany` plus one `commit` otherwise. -/
def bulk_insert_events (recs : List SeqRecord) : List DbEvent :=
  if recs = [] then [] else [DbEvent.insertBatch recs.length, DbEvent.commit]

/-- The per-file parser state of `load_seqs`:
`recs, seq, frag_end, frag, is_seq = [], '', '', 0, True`, plus the rows
already flushed to the database and the statements issued so far. -/
structure LoadState where
  inserted : List SeqRecord
  events : List DbEvent
  recs : List SeqRecord
  seq : List Char
  fragEnd : List Char
  frag : FragVal
  isSeq : Bool
deriving Repr

def initLoadState : LoadState :=
  ⟨[], [], [], [], [], FragVal.intZero, true⟩

/-- `line[0] in ['>', '@']`. -/
def isHeaderChar (c : Char) : Bool := c = '>' || c = '@'

/-- The `for line in sra_file` body of `load_seqs`, without the batch
check: dispatch on the first character of the line. -/
def procLine (st : LoadState) (line : List Char) : LoadState :=
  match line with
  | [] => st
  | c :: rest =>
    if isHeaderChar c then
      let recs' := if st.seq ≠ [] then st.recs ++ [⟨st.frag, st.fragEnd, st.seq⟩] else st.recs
      let p := parseHeaderRec (c :: rest)
      { st with recs := recs', seq := [], isSeq := true, frag := p.1, fragEnd := p.2 }
    else if c = '+' then
      { st with isSeq := false }
    else if c.isAlpha && st.isSeq then
      { st with seq := st.seq ++ pyRstrip (c :: rest) }
    else st

/-- `if len(recs) >= DEFAULT_BATCH_SIZE: bulk_insert(db_conn, recs); recs = []`. -/
def batchFlush (st1 : LoadState) : LoadState :=
  if batchSize ≤ st1.recs.length then
    { st1 with inserted := bulk_insert st1.inserted st1.recs
             , events := st1.events ++ bulk_insert_events st1.recs
             , recs := [] }
  else st1

/-- One loop iteration of `load_seqs`: process the line, then the batch
check. -/
def procLineB (st : LoadState) (line : List Char) : LoadState :=
  batchFlush (procLine st line)

/-- `load_seqs` on one file: iterate the lines, flush the pending record
(`if seq: recs.append(...)`), then `bulk_insert(db_conn, recs)`.
Returns the rows present in the database afterwards, in insertion order. -/
def load_seqs_state (lines : List (List Char)) : LoadState :=
  let st := lines.foldl procLineB initLoadState
  let st2 := if st.seq ≠ [] then { st with recs := st.recs ++ [⟨st.frag, st.fragEnd, st.seq⟩] }
             else st
  { st2 with inserted := bulk_insert st2.inserted st2.recs
           , events := st2.events ++ bulk_insert_events st2.recs
           , recs := [] }

def load_seqs_file (lines : List (List Char)) : List SeqRecord :=
  (load_seqs_state lines).inserted

def load_seqs_file_events (lines : List (List Char)) : List DbEvent :=
  (load_seqs_state lines).events

/-!  The shard partitioner `assign_seqs_to_shards` of `format_sra.py`.

The partitioner only reads the `frag` column in sorted order, so it is
embedded as a function of the sorted list of names (`SELECT frag FROM frags
ORDER BY frag`) and the desired shard count. -/

/-- `np.linspace(0, total, num=shards + 1, dtype=int)`: `shards + 1` evenly
spaced values from `0` to `total`, truncated to integers.  Modelled with
exact integer arithmetic (`total * i / shards` is the truncation of the real
interpolant); numpy computes the interior samples in floating point, which
agrees on the concrete inputs used here. -/
def linspaceNat (total shards : Nat) : List Nat :=
  (List.range (shards + 1)).map (fun i => total * i / shards)

/-- One iteration of the offset-adjustment loop (lines 92–98):
fetch the names at sorted ranks `o` and `o + 1`
(`SELECT frag ... LIMIT 2 OFFSET o` followed by two `fetchone()[0]`), and
add one to the offset when they differ.  `fetchone()` returns `None` once
the cursor is exhausted, so a missing row raises (`None[0]`): modelled as
`none`. -/
def adjustOffset (frags : List (List Char)) (o : Nat) : Option Nat :=
  match frags[o]?, frags[o + 1]? with
  | some first, some second => some (if first ≠ second then o + 1 else o)
  | _, _ => none

/-- The loop `for i in range(1, len(offsets) - 1)` applied to the tail of
the offsets list: every element except the last is adjusted, the last is
left untouched. -/
def adjustInterior (frags : List (List Char)) : List Nat → Option (List Nat)
  | [] => some []
  | [o] => some [o]
  | o :: o2 :: rest => do
    let o' ← adjustOffset frags o
    let rest' ← adjustInterior frags (o2 :: rest)
    pure (o' :: rest')

/-- `limits = [offsets[i + 1] - offsets[i] for i in range(len(offsets) - 1)]`.
Kept in `Int` because the Python subtraction of numpy integers can go
negative. -/
def limitsOf : List Nat → List Int
  | a :: b :: rest => ((b : Int) - (a : Int)) :: limitsOf (b :: rest)
  | _ => []

/-- `assign_seqs_to_shards(db_conn, config)` on the sorted name column.
Computes the linspace offsets, adjusts the interior ones, and returns
`list(zip(limits, offsets[:-1]))`.  When `shards < 2` the adjustment loop
body never runs and the trailing `connection.close()` raises
`UnboundLocalError` (the `connection` local is only bound inside the loop);
when an offset query cannot fetch two rows, `fetchone()[0]` raises.  Both
aborts are modelled as `none`. -/
def assign_seqs_to_shards (frags : List (List Char)) (shards : Nat) :
    Option (List (Int × Nat)) :=
  if shards < 2 then none
  else
    match linspaceNat frags.length shards with
    | [] => none
    | f :: rest =>
      (adjustInterior frags rest).map
        (fun rest' => (limitsOf (f :: rest')).zip (f :: rest').dropLast)

/-!  The FASTA exporters. -/

/-- `'{}'.format(row[0])` for the `frag` column. -/
def fragValStr : FragVal → List Char
  | FragVal.intZero => ['0']
  | FragVal.str s => s

/-- The per-row writes of `create_blast_db` in `format_sra.py`
(lines 113–115): `out_file.write('>{}{}\n'.format(row[0], row[1]))` then
`out_file.write('{}\n'.format(row[2]))`, as the emitted character stream. -/
def create_blast_db_row (r : SeqRecord) : List Char :=
  ('>' :: (fragValStr r.frag ++ r.fragEnd) ++ ['\n']) ++ r.seq ++ ['\n']

/-- The whole FASTA export file written by `create_blast_db` for a shard
holding the rows `rs` (in the order the shard query returns them). -/
def create_blast_db_fasta (rs : List SeqRecord) : List Char :=
  (rs.map create_blast_db_row).flatten

/-- The per-row writes of `fill_blast_fasta` in `atram_preprocessor.py`
(lines 143–146): `seq_end = '/{}'.format(row[1]) if row[1] else ''`, then
`'>{}{}\n'` and `'{}\n'`.  Rows are `(seq_name, seq_end, seq)` triples of
plain strings. -/
def fill_blast_fasta_row (r : List Char × List Char × List Char) : List Char :=
  ('>' :: (r.1 ++ (if r.2.1 ≠ [] then '/' :: r.2.1 else [])) ++ ['\n']) ++ r.2.2 ++ ['\n']

/-- The whole FASTA file written by `fill_blast_fasta` for the rows `rs`. -/
def fill_blast_fasta (rs : List (List Char × List Char × List Char)) : List Char :=
  (rs.map fill_blast_fasta_row).flatten

/-- Split a character stream into the lines Python's file iteration yields:
each `'\n'` ends a line and stays attached to it; a final fragment without
a newline is a line of its own. -/
def fileLinesAux (acc : List Char) : List Char → List (List Char)
  | [] => if acc = [] then [] else [acc.reverse]
  | c :: rest =>
    if c = '\n' then ('\n' :: acc).reverse :: fileLinesAux [] rest
    else fileLinesAux (c :: acc) rest

def fileLines (s : List Char) : List (List Char) := fileLinesAux [] s

/-!  Proof layer for `load_seqs`: the batch bookkeeping (`inserted`/`recs`)
only splits the output list, so the machine refines a batch-free abstract
machine `stepAbs` over the concatenation `inserted ++ recs`. -/

/-- Abstract parser state: the records produced so far and the pending
`(seq, frag_end, frag, is_seq)` registers. -/
structure AbsState where
  out : List SeqRecord
  seq : List Char
  fragEnd : List Char
  frag : FragVal
  isSeq : Bool
deriving Repr

/-- The abstract per-line step: identical to `procLine`, with the flushed
batches and the pending batch merged into one output list. -/
def stepAbs (a : AbsState) (line : List Char) : AbsState :=
  match line with
  | [] => a
  | c :: rest =>
    if isHeaderChar c then
      let out' := if a.seq ≠ [] then a.out ++ [⟨a.frag, a.fragEnd, a.seq⟩] else a.out
      let p := parseHeaderRec (c :: rest)
      ⟨out', [], p.2, p.1, true⟩
    else if c = '+' then
      { a with isSeq := false }
    else if c.isAlpha && a.isSeq then
      { a with seq := a.seq ++ pyRstrip (c :: rest) }
    else a

def toAbs (st : LoadState) : AbsState :=
  ⟨st.inserted ++ st.recs, st.seq, st.fragEnd, st.frag, st.isSeq⟩

/-- End-of-file flush: `if seq: recs.append(...)`. -/
def absOut (a : AbsState) : List SeqRecord :=
  if a.seq ≠ [] then a.out ++ [⟨a.frag, a.fragEnd, a.seq⟩] else a.out

def initAbs : AbsState := ⟨[], [], [], FragVal.intZero, true⟩

lemma bulk_insert_eq_append (db recs : List SeqRecord) :
    bulk_insert db recs = db ++ recs := by
  unfold bulk_insert; split <;> simp_all

lemma toAbs_procLine (st : LoadState) (l : List Char) :
    toAbs (procLine st l) = stepAbs (toAbs st) l := by
  cases l with
  | nil => rfl
  | cons c rest =>
    by_cases h1 : isHeaderChar c
    · by_cases h2 : st.seq ≠ [] <;>
        simp [procLine, stepAbs, toAbs, h1, h2]
    · by_cases h2 : c = '+'
      · subst h2; simp [procLine, stepAbs, toAbs, h1]
      · by_cases h3 : (c.isAlpha && st.isSeq) = true <;>
          simp [procLine, stepAbs, toAbs, h1, h2, h3]

lemma toAbs_batchFlush (st : LoadState) : toAbs (batchFlush st) = toAbs st := by
  unfold batchFlush
  split
  · simp [toAbs, bulk_insert_eq_append]
  · rfl

lemma toAbs_procLineB (st : LoadState) (l : List Char) :
    toAbs (procLineB st l) = stepAbs (toAbs st) l := by
  rw [procLineB, toAbs_batchFlush, toAbs_procLine]

lemma toAbs_foldl (lines : List (List Char)) : ∀ st : LoadState,
    toAbs (lines.foldl procLineB st) = lines.foldl stepAbs (toAbs st) := by
  induction lines with
  | nil => intro st; rfl
  | cons l rest ih => intro st; simp only [List.foldl_cons, ih, toAbs_procLineB]

/-- The database rows `load_seqs` produces for one file are exactly the
output of the abstract machine. -/
lemma load_seqs_file_eq (lines : List (List Char)) :
    load_seqs_file lines = absOut (lines.foldl stepAbs initAbs) := by
  have hinit : toAbs initLoadState = initAbs := rfl
  have h := toAbs_foldl lines initLoadState
  rw [hinit] at h
  unfold load_seqs_file load_seqs_state absOut
  set st := lines.foldl procLineB initLoadState with hst
  have hout : (toAbs st).out = st.inserted ++ st.recs := rfl
  have hseq : (toAbs st).seq = st.seq := rfl
  by_cases h2 : st.seq ≠ []
  · simp only [h2, if_pos, if_true, bulk_insert_eq_append]
    rw [← h]
    simp [toAbs, h2]
  · simp only [h2, if_neg, if_false, bulk_insert_eq_append]
    rw [← h]
    simp [toAbs, h2]

lemma stepAbs_seq_ne (a : AbsState) (l : List Char)
    (h : ∀ r ∈ a.out, r.seq ≠ []) : ∀ r ∈ (stepAbs a l).out, r.seq ≠ [] := by
  cases l with
  | nil => exact h
  | cons c rest =>
    intro r hr
    by_cases h1 : isHeaderChar c
    · simp only [stepAbs, h1, if_true] at hr
      by_cases h2 : a.seq ≠ []
      · rw [if_pos h2] at hr
        rcases List.mem_append.mp hr with h3 | h3
        · exact h r h3
        · simp only [List.mem_singleton] at h3; subst h3; exact h2
      · rw [if_neg h2] at hr
        exact h r hr
    · simp only [stepAbs, h1, Bool.false_eq_true, if_false] at hr
      split at hr
      · exact h r hr
      · split at hr
        · exact h r hr
        · exact h r hr

lemma foldl_stepAbs_seq_ne (lines : List (List Char)) : ∀ a : AbsState,
    (∀ r ∈ a.out, r.seq ≠ []) →
    ∀ r ∈ (lines.foldl stepAbs a).out, r.seq ≠ [] := by
  induction lines with
  | nil => intro a h; exact h
  | cons l rest ih =>
    intro a h
    exact ih (stepAbs a l) (stepAbs_seq_ne a l h)

/-- C9: the ingestor never emits a record with an empty sequence; records
are appended (mid-file and at end of file) only under the `if seq:` guard. -/
theorem load_seqs_no_empty_sequence (lines : List (List Char)) :
    ∀ r ∈ load_seqs_file lines, r.seq ≠ [] := by
  intro r hr
  rw [load_seqs_file_eq] at hr
  unfold absOut at hr
  have hbase : ∀ r ∈ (lines.foldl stepAbs initAbs).out, r.seq ≠ [] :=
    foldl_stepAbs_seq_ne lines initAbs (by intro r hr; simp [initAbs] at hr)
  by_cases h2 : (lines.foldl stepAbs initAbs).seq ≠ []
  · rw [if_pos h2] at hr
    rcases List.mem_append.mp hr with h3 | h3
    · exact hbase r h3
    · simp only [List.mem_singleton] at h3; subst h3; exact h2
  · rw [if_neg h2] at hr
    exact hbase r hr

/-- Witness for C9 at a concrete input: a header followed immediately by
another header contributes no record, and the one record produced has a
non-empty sequence. -/
theorem load_seqs_no_empty_sequence_witness :
    (⟨FragVal.str ['b', '\n'], [], ['A', 'C']⟩ : SeqRecord) ∈
      load_seqs_file [['>', 'a', '\n'], ['>', 'b', '\n'], ['A', 'C', '\n']] ∧
    (⟨FragVal.str ['b', '\n'], [], ['A', 'C']⟩ : SeqRecord).seq ≠ [] := by
  refine ⟨by decide, ?_⟩
  exact load_seqs_no_empty_sequence [['>', 'a', '\n'], ['>', 'b', '\n'], ['A', 'C', '\n']]
    ⟨FragVal.str ['b', '\n'], [], ['A', 'C']⟩ (by decide)

/-- C10: inserting an empty batch is a no-op — `bulk_insert` is guarded by
`if recs:`, so an empty batch performs no insert statement, no commit, and
leaves the stored rows unchanged; the unconditional final
`bulk_insert(db_conn, recs)` after end of input is therefore safe. -/
theorem bulk_insert_empty_noop (db : List SeqRecord) :
    bulk_insert db [] = db ∧ bulk_insert_events [] = [] := by
  exact ⟨rfl, rfl⟩

/-- C1 counterexample: the adjustment loop advances an interior offset by
one exactly when the two fetched names DIFFER (`if first != second:
offsets[i] += 1`); when they are equal it leaves the offset alone, so a run
of equal names can be split.  On the sorted store `a, b, b, b` with 2
shards the offsets are `[0, 2, 4]`; at interior offset 2 the names at ranks
2 and 3 are both `b`, the offset is not advanced, and the resulting shards
`[0, 2)` and `[2, 4)` split the run of three `b` records (ranks 1–3)
across both shards. -/
theorem assign_seqs_to_shards_splits_equal_run :
    assign_seqs_to_shards [['a'], ['b'], ['b'], ['b']] 2 =
      some [((2 : Int), 0), ((2 : Int), 2)] ∧
    [['a'], ['b'], ['b'], ['b']].get? 1 = [['a'], ['b'], ['b'], ['b']].get? 2 ∧
    [['a'], ['b'], ['b'], ['b']].get? 2 = [['a'], ['b'], ['b'], ['b']].get? 3 := by
  decide

/-- C2 counterexample: for total record count `T = 2` and shard count
`N = 2` the partitioner produces no ranges at all: the offsets are
`[0, 1, 2]`, and the interior query `SELECT frag ... LIMIT 2 OFFSET 1` over
two rows returns a single row, so the second `fetchone()` yields `None`
and `None[0]` raises.  The claim's "for every T ≥ 1 and N ≥ 1" therefore
fails. -/
theorem assign_seqs_to_shards_faults_small_store :
    assign_seqs_to_shards [['a'], ['b']] 2 = none := by
  decide

/-!  Proof layer for `assign_seqs_to_shards`: when every interior offset
query can fetch two rows, the adjustment loop is the pure function `gAdj`
applied to the interior offsets. -/

/-- The pure offset adjustment: add one exactly when the names at sorted
ranks `o` and `o + 1` differ. -/
def gAdj (frags : List (List Char)) (o : Nat) : Nat :=
  if frags[o]? ≠ frags[o + 1]? then o + 1 else o

/-- `mapInterior g l` applies `g` to every element of `l` except the last. -/
def mapInterior (g : Nat → Nat) : List Nat → List Nat
  | [] => []
  | [o] => [o]
  | o :: o2 :: rest => g o :: mapInterior g (o2 :: rest)

/-- The adjusted offsets array (`offsets` after the loop), defined when no
query faults; the first and last entries are never touched. -/
def adjOffsets (frags : List (List Char)) (shards : Nat) : List Nat :=
  match linspaceNat frags.length shards with
  | [] => []
  | f :: rest => f :: mapInterior (gAdj frags) rest

/-- The value of the adjusted offsets array at index `i ≤ shards`. -/
def adjAt (frags : List (List Char)) (shards i : Nat) : Nat :=
  if i = 0 then 0
  else if i < shards then gAdj frags (frags.length * i / shards)
  else frags.length

lemma gAdj_ge (frags : List (List Char)) (o : Nat) : o ≤ gAdj frags o := by
  unfold gAdj; split <;> omega

lemma gAdj_le (frags : List (List Char)) (o : Nat) : gAdj frags o ≤ o + 1 := by
  unfold gAdj; split <;> omega

lemma gAdj_mono (frags : List (List Char)) {x y : Nat} (h : x ≤ y) :
    gAdj frags x ≤ gAdj frags y := by
  rcases Nat.lt_or_ge x y with h1 | h1
  · calc gAdj frags x ≤ x + 1 := gAdj_le frags x
    _ ≤ y := h1
    _ ≤ gAdj frags y := gAdj_ge frags y
  · have : x = y := Nat.le_antisymm h h1
    subst this; exact Nat.le_refl _

lemma adjustOffset_eq_gAdj (frags : List (List Char)) (o : Nat)
    (h : o + 1 < frags.length) :
    adjustOffset frags o = some (gAdj frags o) := by
  have h0 : o < frags.length := Nat.lt_of_succ_lt h
  unfold adjustOffset gAdj
  rw [List.getElem?_eq_getElem h0, List.getElem?_eq_getElem h]
  simp

lemma adjustInterior_eq_mapInterior (frags : List (List Char)) :
    ∀ l : List Nat, (∀ o ∈ l.dropLast, o + 1 < frags.length) →
    adjustInterior frags l = some (mapInterior (gAdj frags) l) := by
  intro l
  induction l with
  | nil => intro _; rfl
  | cons o tl ih =>
    cases tl with
    | nil => intro _; rfl
    | cons o2 rest =>
      intro h
      have ho : o + 1 < frags.length := by
        apply h; simp [List.dropLast]
      have hrest : ∀ x ∈ (o2 :: rest).dropLast, x + 1 < frags.length := by
        intro x hx; apply h; simp [List.dropLast, hx]
      show adjustInterior frags (o :: o2 :: rest) = _
      unfold adjustInterior
      rw [adjustOffset_eq_gAdj frags o ho, ih hrest]
      rfl

lemma mapInterior_length (g : Nat → Nat) : ∀ l : List Nat,
    (mapInterior g l).length = l.length := by
  intro l
  induction l with
  | nil => rfl
  | cons o tl ih =>
    cases tl with
    | nil => rfl
    | cons o2 rest =>
      show (g o :: mapInterior g (o2 :: rest)).length = (o :: o2 :: rest).length
      simp only [List.length_cons]
      rw [ih]
      simp

lemma mapInterior_getElem? (g : Nat → Nat) : ∀ (l : List Nat) (i : Nat),
    (mapInterior g l)[i]? =
      if i + 1 < l.length then (l[i]?).map g else l[i]? := by
  intro l
  induction l with
  | nil => intro i; simp [mapInterior]
  | cons o tl ih =>
    cases tl with
    | nil =>
      intro i
      have : ¬ (i + 1 < 1) := by omega
      simp only [mapInterior, List.length_cons, List.length_nil]
      cases i <;> simp
    | cons o2 rest =>
      intro i
      cases i with
      | zero =>
        simp [mapInterior]
      | succ j =>
        simp only [mapInterior, List.getElem?_cons_succ, ih (j),
          List.length_cons]
        have : j + 1 + 1 < (o2 :: rest).length + 1 ↔ j + 1 < (o2 :: rest).length := by
          simp only [List.length_cons]; omega
        split <;> split <;> simp_all

lemma limitsOf_length : ∀ l : List Nat, (limitsOf l).length = l.length - 1 := by
  intro l
  induction l with
  | nil => rfl
  | cons a tl ih =>
    cases tl with
    | nil => rfl
    | cons b rest => simp only [limitsOf, List.length_cons]; rw [ih]; simp

lemma limitsOf_getElem? : ∀ (l : List Nat) (i : Nat) (a b : Nat),
    l[i]? = some a → l[i + 1]? = some b →
    (limitsOf l)[i]? = some ((b : Int) - (a : Int)) := by
  intro l
  induction l with
  | nil => intro i a b ha _; simp at ha
  | cons x tl ih =>
    cases tl with
    | nil =>
      intro i a b _ hb
      cases i <;> simp at hb
    | cons y rest =>
      intro i a b ha hb
      cases i with
      | zero =>
        rw [List.getElem?_cons_zero, Option.some.injEq] at ha
        rw [List.getElem?_cons_succ, List.getElem?_cons_zero, Option.some.injEq] at hb
        subst ha; subst hb
        simp [limitsOf]
      | succ j =>
        rw [List.getElem?_cons_succ] at ha
        rw [List.getElem?_cons_succ] at hb
        have := ih j a b ha hb
        show (((y : Int) - (x : Int)) :: limitsOf (y :: rest))[j + 1]? = _
        rw [List.getElem?_cons_succ]
        exact this

lemma getElem?_dropLast {α : Type} : ∀ (l : List α) (i : Nat),
    i + 1 < l.length → l.dropLast[i]? = l[i]? := by
  intro l
  induction l with
  | nil => intro i h; simp at h
  | cons a tl ih =>
    cases tl with
    | nil => intro i h; simp at h
    | cons b rest =>
      intro i h
      cases i with
      | zero => simp [List.dropLast]
      | succ j =>
        simp only [List.length_cons] at h
        have hj : j + 1 < (b :: rest).length := by
          simp only [List.length_cons]; omega
        simp only [List.dropLast, List.getElem?_cons_succ]
        exact ih j hj

lemma zip_getElem?_eq_some {α β : Type} : ∀ (u : List α) (v : List β) (i : Nat)
    (p : α × β), (u.zip v)[i]? = some p ↔ (u[i]? = some p.1 ∧ v[i]? = some p.2) := by
  intro u
  induction u with
  | nil => intro v i p; simp
  | cons a utl ih =>
    intro v i p
    cases v with
    | nil => simp
    | cons b vtl =>
      cases i with
      | zero =>
        simp only [List.zip_cons_cons, List.getElem?_cons_zero, Option.some.injEq]
        constructor
        · intro h; rw [← h]; exact ⟨rfl, rfl⟩
        · intro ⟨h1, h2⟩
          cases h1; cases h2
          cases p; rfl
      | succ j =>
        simp only [List.zip_cons_cons, List.getElem?_cons_succ]
        exact ih vtl j p

lemma linspaceNat_length (T N : Nat) : (linspaceNat T N).length = N + 1 := by
  simp [linspaceNat]

lemma linspaceNat_getElem? (T N i : Nat) :
    (linspaceNat T N)[i]? = if i < N + 1 then some (T * i / N) else none := by
  unfold linspaceNat
  rw [List.getElem?_map]
  by_cases h : i < N + 1
  · rw [List.getElem?_range h, if_pos h]; rfl
  · rw [if_neg h, List.getElem?_eq_none (by simpa using Nat.le_of_not_lt h)]
    rfl

lemma linspaceNat_eq_cons (T N : Nat) :
    linspaceNat T N = 0 :: (List.range N).map (fun i => T * (i + 1) / N) := by
  unfold linspaceNat
  rw [List.range_succ_eq_map]
  simp [List.map_map, Function.comp]

lemma interiorList_getElem? (T N j : Nat) :
    ((List.range N).map (fun i => T * (i + 1) / N))[j]? =
      if j < N then some (T * (j + 1) / N) else none := by
  rw [List.getElem?_map]
  by_cases hj : j < N
  · rw [List.getElem?_range hj, if_pos hj]; rfl
  · rw [if_neg hj, List.getElem?_eq_none (by simpa using Nat.le_of_not_lt hj)]
    rfl

lemma adjOffsets_getElem? (frags : List (List Char)) (shards i : Nat)
    (h1 : 1 ≤ shards) (hi : i ≤ shards) :
    (adjOffsets frags shards)[i]? = some (adjAt frags shards i) := by
  unfold adjOffsets adjAt
  rw [linspaceNat_eq_cons]
  dsimp only
  cases i with
  | zero => simp
  | succ j =>
    have hj : j < shards := by omega
    rw [List.getElem?_cons_succ, mapInterior_getElem?]
    rw [interiorList_getElem?, if_pos hj]
    simp only [List.length_map, List.length_range]
    by_cases hcase : j + 1 < shards
    · rw [if_pos hcase, if_neg (by omega : ¬ j + 1 = 0), if_pos hcase]
      rfl
    · have hlast : j + 1 = shards := by omega
      rw [if_neg hcase, if_neg (by omega : ¬ j + 1 = 0), if_neg hcase]
      rw [hlast, Nat.mul_div_cancel _ (by omega : 0 < shards)]

lemma adjOffsets_length (frags : List (List Char)) (shards : Nat) :
    (adjOffsets frags shards).length = shards + 1 := by
  unfold adjOffsets
  rw [linspaceNat_eq_cons]
  dsimp only
  simp [mapInterior_length]

lemma adjAt_mono (frags : List (List Char)) (shards : Nat)
    (hq : ∀ i, i < shards → 1 ≤ i →
      frags.length * i / shards + 1 < frags.length)
    (i : Nat) (hi : i < shards) :
    adjAt frags shards i ≤ adjAt frags shards (i + 1) := by
  unfold adjAt
  by_cases h0 : i = 0
  · subst h0; simp
  · rw [if_neg h0, if_pos hi, if_neg (by omega : ¬ i + 1 = 0)]
    by_cases hlast : i + 1 < shards
    · rw [if_pos hlast]
      exact gAdj_mono frags
        (Nat.div_le_div_right (Nat.mul_le_mul_left _ (by omega)))
    · rw [if_neg hlast]
      calc gAdj frags (frags.length * i / shards)
          ≤ frags.length * i / shards + 1 := gAdj_le frags _
        _ ≤ frags.length := Nat.le_of_lt (hq i hi (by omega))

lemma mem_interior_dropLast (T N : Nat) (h2 : 2 ≤ N)
    (hq : ∀ i, i < N → 1 ≤ i → T * i / N + 1 < T) :
    ∀ o ∈ ((List.range N).map (fun i => T * (i + 1) / N)).dropLast,
      o + 1 < T := by
  intro o ho
  obtain ⟨j, hj⟩ := List.mem_iff_getElem?.mp ho
  have hlen : ((List.range N).map (fun i => T * (i + 1) / N)).dropLast.length = N - 1 := by
    simp
  have hjlt : j < N - 1 := by
    by_contra hc
    rw [List.getElem?_eq_none (by omega)] at hj
    exact Option.noConfusion hj
  rw [getElem?_dropLast _ _ (by simp; omega)] at hj
  rw [interiorList_getElem?, if_pos (by omega : j < N)] at hj
  obtain rfl : T * (j + 1) / N = o := Option.some.inj hj
  exact hq (j + 1) (by omega) (by omega)

/-- When every interior offset admits the two-row lookup, the partitioner
returns the zipped `(limit, offset)` pairs of the adjusted offsets array. -/
lemma assign_eq_zip (frags : List (List Char)) (shards : Nat) (h2 : 2 ≤ shards)
    (hq : ∀ i, i < shards → 1 ≤ i →
      frags.length * i / shards + 1 < frags.length) :
    assign_seqs_to_shards frags shards =
      some ((limitsOf (adjOffsets frags shards)).zip
            (adjOffsets frags shards).dropLast) := by
  unfold assign_seqs_to_shards adjOffsets
  rw [if_neg (by omega : ¬ shards < 2), linspaceNat_eq_cons]
  dsimp only
  rw [adjustInterior_eq_mapInterior frags _ (mem_interior_dropLast frags.length shards h2 hq)]
  rfl

lemma assign_ranges_getElem? (frags : List (List Char)) (shards i : Nat)
    (h1 : 1 ≤ shards) (hi : i < shards) :
    ((limitsOf (adjOffsets frags shards)).zip
      (adjOffsets frags shards).dropLast)[i]? =
      some (((adjAt frags shards (i + 1) : Int) - (adjAt frags shards i : Int)),
            adjAt frags shards i) := by
  rw [zip_getElem?_eq_some]
  constructor
  · exact limitsOf_getElem? _ i _ _
      (adjOffsets_getElem? frags shards i h1 (by omega))
      (adjOffsets_getElem? frags shards (i + 1) h1 (by omega))
  · rw [getElem?_dropLast _ _ (by rw [adjOffsets_length]; omega)]
    exact adjOffsets_getElem? frags shards i h1 (by omega)

lemma assign_ranges_length (frags : List (List Char)) (shards : Nat) :
    ((limitsOf (adjOffsets frags shards)).zip
      (adjOffsets frags shards).dropLast).length = shards := by
  rw [List.length_zip, limitsOf_length, List.length_dropLast, adjOffsets_length]
  simp

/-- C2 (amended): whenever the partitioner runs to completion — `N ≥ 2`
(for `N < 2` the adjustment loop never runs and `connection.close()` hits
an unbound local) and every interior linspace offset `o = T*i/N` satisfies
`o + 1 < T` so both row fetches succeed — the `N` produced `(count,
startRank)` ranges are contiguous (each range starts where the previous one
ends), have non-negative counts, are sorted by start rank and hence
pairwise disjoint, start at rank `0`, and end at rank `T`: their union is
exactly `[0, T)`. -/
theorem assign_seqs_to_shards_partition (frags : List (List Char)) (shards : Nat)
    (h2 : 2 ≤ shards)
    (hq : ∀ i, i < shards → 1 ≤ i →
      frags.length * i / shards + 1 < frags.length) :
    ∃ rs : List (Int × Nat),
      assign_seqs_to_shards frags shards = some rs ∧
      rs.length = shards ∧
      (∀ p ∈ rs, 0 ≤ p.1) ∧
      (∀ p, rs[0]? = some p → p.2 = 0) ∧
      (∀ i p q, rs[i]? = some p → rs[i + 1]? = some q →
        (q.2 : Int) = (p.2 : Int) + p.1 ∧ p.2 ≤ q.2) ∧
      (∀ p, rs[shards - 1]? = some p →
        (p.2 : Int) + p.1 = (frags.length : Int)) := by
  have h1 : 1 ≤ shards := by omega
  refine ⟨_, assign_eq_zip frags shards h2 hq, assign_ranges_length frags shards,
    ?_, ?_, ?_, ?_⟩
  · intro p hp
    obtain ⟨i, hi⟩ := List.mem_iff_getElem?.mp hp
    have hilt : i < shards := by
      by_contra hc
      rw [List.getElem?_eq_none (by rw [assign_ranges_length]; omega)] at hi
      exact Option.noConfusion hi
    rw [assign_ranges_getElem? frags shards i h1 hilt] at hi
    obtain rfl := Option.some.inj hi
    have := adjAt_mono frags shards hq i hilt
    simp only
    omega
  · intro p hp
    rw [assign_ranges_getElem? frags shards 0 h1 (by omega)] at hp
    obtain rfl := Option.some.inj hp
    simp [adjAt]
  · intro i p q hp hq'
    have hi1 : i + 1 < shards := by
      by_contra hc
      rw [List.getElem?_eq_none (by rw [assign_ranges_length]; omega)] at hq'
      exact Option.noConfusion hq'
    rw [assign_ranges_getElem? frags shards i h1 (by omega)] at hp
    rw [assign_ranges_getElem? frags shards (i + 1) h1 hi1] at hq'
    obtain rfl := Option.some.inj hp
    obtain rfl := Option.some.inj hq'
    have hm1 := adjAt_mono frags shards hq i (by omega)
    constructor
    · simp only
      omega
    · simpa only using hm1
  · intro p hp
    rw [assign_ranges_getElem? frags shards (shards - 1) h1 (by omega)] at hp
    obtain rfl := Option.some.inj hp
    have hl : shards - 1 + 1 = shards := by omega
    rw [hl]
    have : adjAt frags shards shards = frags.length := by
      unfold adjAt
      rw [if_neg (by omega : ¬ shards = 0), if_neg (by omega : ¬ shards < shards)]
    simp only [this]
    omega

/-- Closed witness for the amended C2 at the concrete sorted store
`a, a, b, b` with 2 shards: the hypotheses hold and the theorem applies. -/
theorem assign_seqs_to_shards_partition_witness :
    (2 ≤ 2 ∧ (∀ i, i < 2 → 1 ≤ i →
      ([['a'], ['a'], ['b'], ['b']] : List (List Char)).length * i / 2 + 1 <
        ([['a'], ['a'], ['b'], ['b']] : List (List Char)).length)) ∧
    (∃ rs : List (Int × Nat),
      assign_seqs_to_shards [['a'], ['a'], ['b'], ['b']] 2 = some rs ∧
      rs.length = 2 ∧
      (∀ p ∈ rs, 0 ≤ p.1) ∧
      (∀ p, rs[0]? = some p → p.2 = 0) ∧
      (∀ i p q, rs[i]? = some p → rs[i + 1]? = some q →
        (q.2 : Int) = (p.2 : Int) + p.1 ∧ p.2 ≤ q.2) ∧
      (∀ p, rs[2 - 1]? = some p →
        (p.2 : Int) + p.1 = (([['a'], ['a'], ['b'], ['b']] : List (List Char)).length : Int))) :=
  ⟨⟨by omega, by decide⟩,
    assign_seqs_to_shards_partition [['a'], ['a'], ['b'], ['b']] 2 (by omega) (by decide)⟩

/-!  The paired-duplicate store for the amended C1. -/

/-- Duplicate every element: the sorted name column of a paired-end run in
which every name occurs exactly twice, at two consecutive sorted ranks. -/
def dupPairs : List (List Char) → List (List Char)
  | [] => []
  | x :: r => x :: x :: dupPairs r

lemma dupPairs_length : ∀ base : List (List Char),
    (dupPairs base).length = 2 * base.length := by
  intro base
  induction base with
  | nil => rfl
  | cons x r ih =>
    show (x :: x :: dupPairs r).length = 2 * (x :: r).length
    simp only [List.length_cons, ih]
    omega

lemma dupPairs_getElem? : ∀ (base : List (List Char)) (j : Nat),
    (dupPairs base)[j]? = base[j / 2]? := by
  intro base
  induction base with
  | nil => intro j; simp [dupPairs]
  | cons x r ih =>
    intro j
    match j with
    | 0 => simp [dupPairs]
    | 1 => simp [dupPairs]
    | (k + 2) =>
      have h2 : (k + 2) / 2 = k / 2 + 1 := by omega
      show (x :: x :: dupPairs r)[k + 2]? = _
      rw [List.getElem?_cons_succ, List.getElem?_cons_succ, ih k, h2,
        List.getElem?_cons_succ]

lemma chain'_ne_getElem? : ∀ base : List (List Char),
    List.Chain' (· ≠ ·) base →
    ∀ (t : Nat) (x y : List Char),
      base[t]? = some x → base[t + 1]? = some y → x ≠ y := by
  intro base
  induction base with
  | nil => intro _ t x y hx _; simp at hx
  | cons a r ih =>
    intro h t x y hx hy
    cases t with
    | zero =>
      rw [List.getElem?_cons_zero, Option.some.injEq] at hx
      rw [List.getElem?_cons_succ] at hy
      cases r with
      | nil => simp at hy
      | cons b r' =>
        rw [List.getElem?_cons_zero, Option.some.injEq] at hy
        subst hx; subst hy
        exact (List.chain'_cons.mp h).1
    | succ s =>
      rw [List.getElem?_cons_succ] at hx
      rw [List.getElem?_cons_succ] at hy
      exact ih h.tail s x y hx hy

lemma gAdj_dupPairs_even (base : List (List Char))
    (hchain : List.Chain' (· ≠ ·) base) (o : Nat)
    (ho : o + 1 < (dupPairs base).length) :
    gAdj (dupPairs base) o % 2 = 0 := by
  rcases Nat.even_or_odd o with he | hodd
  · obtain ⟨t, rfl⟩ := he
    unfold gAdj
    rw [dupPairs_getElem?, dupPairs_getElem?]
    have h1 : (t + t) / 2 = t := by omega
    have h2 : (t + t + 1) / 2 = t := by omega
    rw [h1, h2, if_neg (by simp)]
    omega
  · obtain ⟨t, rfl⟩ := hodd
    unfold gAdj
    rw [dupPairs_getElem?, dupPairs_getElem?]
    have h1 : (2 * t + 1) / 2 = t := by omega
    have h2 : (2 * t + 1 + 1) / 2 = t + 1 := by omega
    rw [h1, h2]
    rw [dupPairs_length] at ho
    have ht1 : t + 1 < base.length := by omega
    have ht : t < base.length := by omega
    have hne := chain'_ne_getElem? base hchain t _ _
      (List.getElem?_eq_getElem ht) (List.getElem?_eq_getElem ht1)
    rw [List.getElem?_eq_getElem ht, List.getElem?_eq_getElem ht1,
      if_pos (by simpa using hne)]
    omega

lemma adjAt_dupPairs_even (base : List (List Char))
    (hchain : List.Chain' (· ≠ ·) base) (shards i : Nat)
    (hq : ∀ j, j < shards → 1 ≤ j →
      (dupPairs base).length * j / shards + 1 < (dupPairs base).length) :
    adjAt (dupPairs base) shards i % 2 = 0 := by
  unfold adjAt
  by_cases h0 : i = 0
  · simp [h0]
  · rw [if_neg h0]
    by_cases hint : i < shards
    · rw [if_pos hint]
      exact gAdj_dupPairs_even base hchain _ (hq i hint (by omega))
    · rw [if_neg hint, dupPairs_length]
      omega

/-- C1 (amended): the adjustment loop compares the names at an interior
offset and the next sorted rank and advances the offset by EXACTLY ONE when
they DIFFER (not "until the name changes when they are equal").  For a
sorted store in which every name occupies exactly one consecutive pair of
ranks (adjacent base names distinct, each duplicated once — the paired-end
layout this adjustment was written for), every produced shard boundary ends
up even, so each shard starts either at rank 0 or at a rank whose name
differs from the name just before it: no name's records are split across
two adjacent shards.  (Runs of three or more equal names can still be
split, as the counterexample shows.) -/
theorem assign_seqs_to_shards_pairs_not_split (base : List (List Char))
    (shards : Nat) (hchain : List.Chain' (· ≠ ·) base) (h2 : 2 ≤ shards)
    (hq : ∀ i, i < shards → 1 ≤ i →
      (dupPairs base).length * i / shards + 1 < (dupPairs base).length) :
    ∃ rs : List (Int × Nat),
      assign_seqs_to_shards (dupPairs base) shards = some rs ∧
      ∀ i p, rs[i]? = some p → 1 ≤ i →
        p.2 = 0 ∨ (dupPairs base)[p.2 - 1]? ≠ (dupPairs base)[p.2]? := by
  have h1 : 1 ≤ shards := by omega
  refine ⟨_, assign_eq_zip (dupPairs base) shards h2 hq, ?_⟩
  intro i p hp hi1
  have hilt : i < shards := by
    by_contra hc
    rw [List.getElem?_eq_none (by rw [assign_ranges_length]; omega)] at hp
    exact Option.noConfusion hp
  rw [assign_ranges_getElem? _ shards i h1 hilt] at hp
  obtain rfl := Option.some.inj hp
  simp only
  by_cases hz : adjAt (dupPairs base) shards i = 0
  · exact Or.inl hz
  · right
    have heven := adjAt_dupPairs_even base hchain shards i hq
    have hadj : adjAt (dupPairs base) shards i =
        gAdj (dupPairs base) ((dupPairs base).length * i / shards) := by
      unfold adjAt
      rw [if_neg (by omega : ¬ i = 0), if_pos hilt]
    have hsT : adjAt (dupPairs base) shards i < (dupPairs base).length := by
      have hle := gAdj_le (dupPairs base) ((dupPairs base).length * i / shards)
      have hlt := hq i hilt hi1
      omega
    set s := adjAt (dupPairs base) shards i with hs
    rw [dupPairs_getElem?, dupPairs_getElem?]
    have e1 : (s - 1) / 2 = s / 2 - 1 := by omega
    rw [e1]
    rw [dupPairs_length] at hsT
    have hkl : s / 2 < base.length := by omega
    have hk0 : 1 ≤ s / 2 := by omega
    have hk1 : s / 2 - 1 + 1 = s / 2 := by omega
    rw [List.getElem?_eq_getElem (show s / 2 - 1 < base.length by omega),
      List.getElem?_eq_getElem hkl]
    have hne := chain'_ne_getElem? base hchain (s / 2 - 1) _ _
      (List.getElem?_eq_getElem (show s / 2 - 1 < base.length by omega))
      (by rw [hk1]; exact List.getElem?_eq_getElem hkl)
    simp only [Ne, Option.some.injEq]
    intro hcontra
    exact hne hcontra

/-- Closed witness for the amended C1 at the paired store `a, a, b, b`
with 2 shards. -/
theorem assign_seqs_to_shards_pairs_not_split_witness :
    (List.Chain' (· ≠ ·) ([['a'], ['b']] : List (List Char)) ∧ 2 ≤ 2 ∧
      (∀ i, i < 2 → 1 ≤ i →
        (dupPairs [['a'], ['b']]).length * i / 2 + 1 <
          (dupPairs [['a'], ['b']]).length)) ∧
    (∃ rs : List (Int × Nat),
      assign_seqs_to_shards (dupPairs [['a'], ['b']]) 2 = some rs ∧
      ∀ i p, rs[i]? = some p → 1 ≤ i →
        p.2 = 0 ∨ (dupPairs [['a'], ['b']])[p.2 - 1]? ≠
          (dupPairs [['a'], ['b']])[p.2]?) :=
  ⟨⟨List.chain'_pair.mpr (by decide), by omega, by decide⟩,
    assign_seqs_to_shards_pairs_not_split [['a'], ['b']] 2
      (List.chain'_pair.mpr (by decide)) (by omega) (by decide)⟩

/-- C6 counterexample: `'.'` is NOT in the separator class `[\s\/_]` of
`FRAGMENT`, so the header `>x.1` is not parsed as name `x` with end tag
`1`: the whole line after the marker (trailing newline included) becomes
the name and the end tag is empty. -/
theorem header_dot_separator_not_stripped :
    load_seqs_file [['>', 'x', '.', '1', '\n'], ['A', 'C', 'G', 'T', '\n']] =
      [⟨FragVal.str ['x', '.', '1', '\n'], [], ['A', 'C', 'G', 'T']⟩] ∧
    FragVal.str ['x', '.', '1', '\n'] ≠ FragVal.str ['x'] := by
  decide

/-!  Character-class facts and the key regex re-parsing lemmas. -/

lemma sepClass_false_of_isOneTwo (d : Char) (hd : isOneTwo d = true) :
    sepClass d = false := by
  have : d = '1' ∨ d = '2' := by
    simpa [isOneTwo] using hd
  rcases this with rfl | rfl <;> decide

lemma isPySpace_false_of_isAlpha (c : Char) (h : c.isAlpha = true) :
    isPySpace c = false := by
  by_contra hc
  have hc' : isPySpace c = true := by simpa using hc
  simp only [isPySpace, Bool.or_eq_true, decide_eq_true_eq] at hc'
  rcases hc' with ((((h1 | h1) | h1) | h1) | h1) | h1 <;>
    (subst h1; exact absurd h (by decide))

lemma isHeaderChar_false_of_isAlpha (c : Char) (h : c.isAlpha = true) :
    isHeaderChar c = false := by
  by_contra hc
  have hc' : isHeaderChar c = true := by simpa using hc
  simp only [isHeaderChar, Bool.or_eq_true, decide_eq_true_eq] at hc'
  rcases hc' with h1 | h1 <;> (subst h1; exact absurd h (by decide))

lemma ne_plus_of_isAlpha (c : Char) (h : c.isAlpha = true) : ¬ c = '+' := by
  intro h1; subst h1; exact absurd h (by decide)

lemma pyRstrip_cons_ne_nil (c : Char) (srest : List Char)
    (h : c.isAlpha = true) : pyRstrip (c :: srest) ≠ [] := by
  unfold pyRstrip
  intro hcontra
  rw [List.reverse_eq_nil_iff, List.dropWhile_eq_nil_iff] at hcontra
  have hmem := hcontra c (by simp)
  rw [isPySpace_false_of_isAlpha c h] at hmem
  exact Bool.noConfusion hmem

lemma lastPairPos_cons_of_some (a : Char) (l : List Char) (i : Nat)
    (h : lastPairPos l = some i) : lastPairPos (a :: l) = some (i + 1) := by
  cases l with
  | nil => simp [lastPairPos] at h
  | cons b rest => rw [lastPairPos, h]

/-- The last separator/digit pair of `u ++ [sep, d, '\n']` sits exactly at
the boundary `u.length`: the digit cannot start a pair (digits are not
separators) and nothing follows the newline. -/
lemma lastPairPos_append_sep : ∀ (u : List Char) (sep d : Char),
    sepClass sep = true → isOneTwo d = true →
    lastPairPos (u ++ [sep, d, '\n']) = some u.length := by
  intro u
  induction u with
  | nil =>
    intro sep d hsep hd
    have hd2 : sepClass d = false := sepClass_false_of_isOneTwo d hd
    have inner : lastPairPos ['\n'] = none := rfl
    have mid : lastPairPos [d, '\n'] = none := by
      rw [lastPairPos, inner]
      simp [hd2]
    show lastPairPos [sep, d, '\n'] = some 0
    rw [lastPairPos, mid]
    simp [hsep, hd]
  | cons c u' ih =>
    intro sep d hsep hd
    show lastPairPos (c :: (u' ++ [sep, d, '\n'])) = some (u'.length + 1)
    exact lastPairPos_cons_of_some c _ _ (ih sep d hsep hd)

lemma wsPrefixLen_cons_false (c : Char) (l : List Char)
    (h : isPySpace c = false) : wsPrefixLen (c :: l) = 0 := by
  rw [wsPrefixLen, h]
  simp

/-- Re-parsing a well-formed exported header: the greedy match splits
`u ++ [sep, d]` back into name `u` and end group `[sep, d]` whenever `u`
does not start with whitespace (names produced by the parser never do). -/
lemma fragMatch0_append_sep (u : List Char) (sep d : Char)
    (hsep : sepClass sep = true) (hd : isOneTwo d = true)
    (hu : u = [] ∨ isPySpace (u.headD ' ') = false) :
    fragMatch0 (u ++ [sep, d, '\n']) = some (u, [sep, d]) := by
  unfold fragMatch0
  rw [lastPairPos_append_sep u sep d hsep hd]
  dsimp only
  have ha : min (wsPrefixLen (u ++ [sep, d, '\n'])) u.length = 0 := by
    rcases hu with rfl | hu
    · simp
    · cases u with
      | nil => simp
      | cons c u' =>
        rw [List.cons_append, wsPrefixLen_cons_false c _ (by simpa using hu)]
        simp
  rw [ha]
  simp only [Nat.sub_zero, List.drop_zero]
  rw [List.take_left' rfl]
  rw [List.drop_left' rfl]
  rfl

/-- C6 (amended): in the code the separator class before the trailing `1`
or `2` is `/`, `_`, or whitespace — NOT `.` (the counterexample header
`>x.1` keeps `.1` in its name).  When the regex matches, the name and the
two-character separator+digit group are split at the last such pair; when
no such pair exists the header degrades permissively: everything after the
leading `>`/`@` marker (trailing newline included) becomes the name and
the end tag is empty — ingestion never aborts on a header. -/
theorem header_parse_amended :
    (∀ (base : List Char) (sep d : Char), sepClass sep = true →
      isOneTwo d = true → (base = [] ∨ isPySpace (base.headD ' ') = false) →
      parseHeaderRec ('>' :: (base ++ [sep, d, '\n'])) =
        (FragVal.str base, [sep, d]))
    ∧ (∀ (c : Char) (rest : List Char), lastPairPos rest = none →
      parseHeaderRec (c :: rest) = (FragVal.str rest, [])) := by
  constructor
  · intro base sep d hsep hd hu
    unfold parseHeaderRec
    simp only [List.tail_cons]
    rw [fragMatch0_append_sep base sep d hsep hd hu]
  · intro c rest h
    unfold parseHeaderRec fragMatch0
    simp only [List.tail_cons]
    rw [h]

/-- Closed witness for the amended C6: the suffix `/1` of `>x/1` is
stripped into the end tag, and the unparsable `>x.1` keeps its whole tail
as the name. -/
theorem header_parse_amended_witness :
    (sepClass '/' = true ∧ isOneTwo '1' = true ∧
      ((['x'] : List Char) = [] ∨ isPySpace ((['x'] : List Char).headD ' ') = false) ∧
      parseHeaderRec ('>' :: (['x'] ++ ['/', '1', '\n'])) =
        (FragVal.str ['x'], ['/', '1']))
    ∧ (lastPairPos ['x', '.', '1', '\n'] = none ∧
      parseHeaderRec ('>' :: ['x', '.', '1', '\n']) =
        (FragVal.str ['x', '.', '1', '\n'], [])) :=
  ⟨⟨by decide, by decide, by decide,
      header_parse_amended.1 ['x'] '/' '1' (by decide) (by decide) (by decide)⟩,
    ⟨by decide, header_parse_amended.2 '>' ['x', '.', '1', '\n'] (by decide)⟩⟩

/-- C5: a 4-line FASTQ record — an `@` header, a sequence line starting
with an alphabetic character, a `+` separator line, and ANY quality line —
produces exactly one record: the parsed header name/end and the stripped
sequence line.  The quality line is discarded (`is_seq` is false after the
`+` line, and a quality line starting with `@`/`>` merely flushes the
already-complete record early), and no record is fabricated from the `+`
line. -/
theorem fastq_record_single (hrest srest prest q : List Char) (c : Char)
    (hc : c.isAlpha = true) :
    load_seqs_file [('@' :: hrest), (c :: srest), ('+' :: prest), q] =
      [⟨(parseHeaderRec ('@' :: hrest)).1, (parseHeaderRec ('@' :: hrest)).2,
        pyRstrip (c :: srest)⟩] := by
  have h1 : isHeaderChar c = false := isHeaderChar_false_of_isAlpha c hc
  have h2 : ¬ c = '+' := ne_plus_of_isAlpha c hc
  have h3 : pyRstrip (c :: srest) ≠ [] := pyRstrip_cons_ne_nil c srest hc
  rw [load_seqs_file_eq]
  simp only [List.foldl_cons, List.foldl_nil]
  have e1 : stepAbs initAbs ('@' :: hrest) =
      ⟨[], [], (parseHeaderRec ('@' :: hrest)).2,
        (parseHeaderRec ('@' :: hrest)).1, true⟩ := by
    simp [stepAbs, initAbs, isHeaderChar]
  have e2 : stepAbs ⟨[], [], (parseHeaderRec ('@' :: hrest)).2,
        (parseHeaderRec ('@' :: hrest)).1, true⟩ (c :: srest) =
      ⟨[], pyRstrip (c :: srest), (parseHeaderRec ('@' :: hrest)).2,
        (parseHeaderRec ('@' :: hrest)).1, true⟩ := by
    simp [stepAbs, h1, h2, hc]
  have e3 : stepAbs ⟨[], pyRstrip (c :: srest), (parseHeaderRec ('@' :: hrest)).2,
        (parseHeaderRec ('@' :: hrest)).1, true⟩ ('+' :: prest) =
      ⟨[], pyRstrip (c :: srest), (parseHeaderRec ('@' :: hrest)).2,
        (parseHeaderRec ('@' :: hrest)).1, false⟩ := by
    simp [stepAbs, isHeaderChar]
  rw [e1, e2, e3]
  cases q with
  | nil => simp [stepAbs, absOut, h3]
  | cons c4 qrest =>
    by_cases hh : isHeaderChar c4
    · simp [stepAbs, absOut, hh, h3]
    · by_cases hp : c4 = '+'
      · subst hp
        simp [stepAbs, absOut, hh, h3]
      · simp [stepAbs, absOut, hh, hp, h3]

/-- Closed witness for C5 at a concrete FASTQ record with quality line
`!!!!`. -/
theorem fastq_record_single_witness :
    ('A'.isAlpha = true) ∧
    load_seqs_file [['@', 'i', 'd', '\n'], ['A', 'C', 'G', 'T', '\n'],
        ['+', '\n'], ['!', '!', '!', '!', '\n']] =
      [⟨FragVal.str ['i', 'd', '\n'], [], ['A', 'C', 'G', 'T']⟩] :=
  ⟨by decide,
    (fastq_record_single ['i', 'd', '\n'] ['C', 'G', 'T', '\n'] ['\n']
      ['!', '!', '!', '!', '\n'] 'A' (by decide)).trans (by decide)⟩

/-!  Line structure of written files, and the C4/C7 export theorems. -/

lemma fileLinesAux_append : ∀ (u : List Char) (acc s : List Char),
    '\n' ∉ u →
    fileLinesAux acc (u ++ '\n' :: s) =
      ((acc.reverse ++ u) ++ ['\n']) :: fileLinesAux [] s := by
  intro u
  induction u with
  | nil =>
    intro acc s _
    show fileLinesAux acc ('\n' :: s) = _
    rw [fileLinesAux]
    simp
  | cons c u' ih =>
    intro acc s hu
    have hc : ¬ c = '\n' := by
      intro h; exact hu (by simp [h])
    have hu' : '\n' ∉ u' := by
      intro h; exact hu (by simp [h])
    show fileLinesAux acc (c :: (u' ++ '\n' :: s)) = _
    rw [fileLinesAux, if_neg hc, ih (c :: acc) s hu']
    simp

/-- Splitting off one newline-terminated line. -/
lemma fileLines_append_line (u s : List Char) (hu : '\n' ∉ u) :
    fileLines (u ++ '\n' :: s) = (u ++ ['\n']) :: fileLines s := by
  unfold fileLines
  rw [fileLinesAux_append u [] s hu]
  simp

lemma fileLines_nil : fileLines [] = [] := rfl

/-- C7: the writer of `fill_blast_fasta` emits exactly two lines per
streamed row — `>` followed by the name, with `/end` appended exactly when
the end tag is non-empty, then the row's whole sequence on the single next
line. -/
theorem fill_blast_fasta_two_lines
    (rows : List (List Char × List Char × List Char))
    (h : ∀ r ∈ rows, '\n' ∉ r.1 ∧ '\n' ∉ r.2.1 ∧ '\n' ∉ r.2.2) :
    fileLines (fill_blast_fasta rows) =
      (rows.map (fun r =>
        [('>' :: (r.1 ++ (if r.2.1 ≠ [] then '/' :: r.2.1 else []))) ++ ['\n'],
         r.2.2 ++ ['\n']])).flatten := by
  induction rows with
  | nil => rfl
  | cons r rest ih =>
    obtain ⟨h1, h2, h3⟩ := h r (List.mem_cons_self r rest)
    have hrest : ∀ x ∈ rest, '\n' ∉ x.1 ∧ '\n' ∉ x.2.1 ∧ '\n' ∉ x.2.2 :=
      fun x hx => h x (List.mem_cons_of_mem r hx)
    have hhdr : '\n' ∉ '>' :: (r.1 ++ (if r.2.1 ≠ [] then '/' :: r.2.1 else [])) := by
      intro hmem
      simp only [List.mem_cons, List.mem_append] at hmem
      rcases hmem with h4 | h4 | h4
      · exact absurd h4.symm (by decide)
      · exact h1 h4
      · split at h4
        · simp only [List.mem_cons] at h4
          rcases h4 with h5 | h5
          · exact absurd h5.symm (by decide)
          · exact h2 h5
        · simp at h4
    have hsplit : fill_blast_fasta (r :: rest) =
        ('>' :: (r.1 ++ (if r.2.1 ≠ [] then '/' :: r.2.1 else []))) ++
          '\n' :: (r.2.2 ++ '\n' :: fill_blast_fasta rest) := by
      show fill_blast_fasta_row r ++ fill_blast_fasta rest = _
      unfold fill_blast_fasta_row
      simp
    rw [hsplit, fileLines_append_line _ _ hhdr, fileLines_append_line _ _ h3, ih hrest]
    simp

/-- Closed witness for C7: one row with an end tag, one without. -/
theorem fill_blast_fasta_two_lines_witness :
    (∀ r ∈ ([(['n', '1'], ['1'], ['A', 'C']), (['n', '2'], [], ['G', 'G'])] :
        List (List Char × List Char × List Char)),
      '\n' ∉ r.1 ∧ '\n' ∉ r.2.1 ∧ '\n' ∉ r.2.2) ∧
    fileLines (fill_blast_fasta
        [(['n', '1'], ['1'], ['A', 'C']), (['n', '2'], [], ['G', 'G'])]) =
      [['>', 'n', '1', '/', '1', '\n'], ['A', 'C', '\n'],
       ['>', 'n', '2', '\n'], ['G', 'G', '\n']] :=
  ⟨by decide,
    (fill_blast_fasta_two_lines
      [(['n', '1'], ['1'], ['A', 'C']), (['n', '2'], [], ['G', 'G'])]
      (by decide)).trans (by decide)⟩

/-!  The store-record invariant for the C4 round trip: exactly the shapes
`load_seqs` can put into the database for a record it parsed from a file
(header either split by the regex into a name and a separator+digit end
group, or taken raw from an unmatched newline-terminated header line), with
a sequence accumulated from alphabetic body lines. -/

/-- A sequence as `load_seqs` accumulates it: non-empty, starting with an
alphabetic character, free of newlines, with no trailing whitespace. -/
def GoodSeq (s : List Char) : Prop :=
  s ≠ [] ∧ (s.headD ' ').isAlpha = true ∧ '\n' ∉ s ∧
    isPySpace (s.getLastD ' ') = false

instance (s : List Char) : Decidable (GoodSeq s) := by
  unfold GoodSeq; exact inferInstance

/-- A `(frag, frag_end)` pair as the header handling can produce it. -/
def HeaderOK (f : List Char) : List Char → Prop
  | [] => f ≠ [] ∧ f.getLastD ' ' = '\n' ∧ '\n' ∉ f.dropLast ∧
      lastPairPos f = none
  | [sep, d] => sepClass sep = true ∧ isOneTwo d = true ∧ sep ≠ '\n' ∧
      '\n' ∉ f ∧ (f = [] ∨ isPySpace (f.headD ' ') = false)
  | _ => False

instance (f e : List Char) : Decidable (HeaderOK f e) :=
  match e with
  | [] => by unfold HeaderOK; exact inferInstance
  | [sep, d] => by unfold HeaderOK; exact inferInstance
  | [_] => isFalse (fun h => h)
  | _ :: _ :: _ :: _ => isFalse (fun h => h)

/-- The name column together with the end column. -/
def fragOK : FragVal → List Char → Prop
  | FragVal.intZero, _ => False
  | FragVal.str f, e => HeaderOK f e

instance (v : FragVal) (e : List Char) : Decidable (fragOK v e) :=
  match v with
  | FragVal.intZero => isFalse (fun h => h)
  | FragVal.str _ => by unfold fragOK; exact inferInstance

/-- The invariant of every database row produced by ingesting a file. -/
def StoreRecOK (r : SeqRecord) : Prop :=
  fragOK r.frag r.fragEnd ∧ GoodSeq r.seq

instance (r : SeqRecord) : Decidable (StoreRecOK r) := by
  unfold StoreRecOK; exact inferInstance

/-- The records still pending in the parser registers. -/
def pendingList (a : AbsState) : List SeqRecord :=
  if a.seq ≠ [] then [⟨a.frag, a.fragEnd, a.seq⟩] else []

lemma absOut_eq_pending (a : AbsState) : absOut a = a.out ++ pendingList a := by
  unfold absOut pendingList
  split <;> simp

lemma pyRstrip_append_newline (s : List Char) (hne : s ≠ [])
    (hlast : isPySpace (s.getLastD ' ') = false) :
    pyRstrip (s ++ ['\n']) = s := by
  unfold pyRstrip
  rw [List.reverse_append]
  obtain ⟨b, u, hbu⟩ : ∃ b u, s.reverse = b :: u := by
    cases hsr : s.reverse with
    | nil =>
      rw [List.reverse_eq_nil_iff] at hsr
      exact absurd hsr hne
    | cons b u => exact ⟨b, u, rfl⟩
  have hb : isPySpace b = false := by
    have h1 : s.getLast? = some b := by
      rw [← List.head?_reverse, hbu]
      rfl
    have h2 : s.getLastD ' ' = b := by
      rw [List.getLastD_eq_getLast?, h1]
      rfl
    rw [← h2]
    exact hlast
  show (List.dropWhile isPySpace (['\n'].reverse ++ s.reverse)).reverse = s
  rw [hbu]
  show (List.dropWhile isPySpace ('\n' :: b :: u)).reverse = s
  rw [List.dropWhile_cons, if_pos (by decide), List.dropWhile_cons, if_neg (by simp [hb])]
  rw [← hbu, List.reverse_reverse]

lemma isOneTwo_ne_newline (d : Char) (hd : isOneTwo d = true) : d ≠ '\n' := by
  intro h
  subst h
  exact absurd hd (by decide)

lemma stepAbs_header_line (a : AbsState) (c : Char) (rest : List Char)
    (hc : isHeaderChar c = true) :
    stepAbs a (c :: rest) =
      ⟨a.out ++ pendingList a, [], (parseHeaderRec (c :: rest)).2,
        (parseHeaderRec (c :: rest)).1, true⟩ := by
  unfold stepAbs
  dsimp only
  rw [if_pos hc]
  unfold pendingList
  split <;> simp

lemma stepAbs_newline_only (a : AbsState) : stepAbs a ['\n'] = a := by
  unfold stepAbs
  dsimp only
  rw [if_neg (by decide), if_neg (by decide),
    if_neg (by rw [show '\n'.isAlpha = false from by decide]; simp)]

lemma stepAbs_seq_line (a : AbsState) (c : Char) (t : List Char)
    (hc : c.isAlpha = true) (hseq : a.isSeq = true) :
    stepAbs a (c :: t) = { a with seq := a.seq ++ pyRstrip (c :: t) } := by
  unfold stepAbs
  dsimp only
  rw [if_neg (by simp [isHeaderChar_false_of_isAlpha c hc]),
    if_neg (ne_plus_of_isAlpha c hc), if_pos (by simp [hc, hseq])]

/-- A whole stored sequence written on one line and re-ingested: the
trailing newline is stripped back off and the body survives intact. -/
lemma stepAbs_seq_append_newline (a : AbsState) (s : List Char)
    (hs : GoodSeq s) (hseq : a.isSeq = true) :
    stepAbs a (s ++ ['\n']) = { a with seq := a.seq ++ s } := by
  obtain ⟨hne, halpha, hnl, hlast⟩ := hs
  obtain ⟨c, t, rfl⟩ : ∃ c t, s = c :: t := by
    cases hs' : s with
    | nil => exact absurd hs' hne
    | cons c t => exact ⟨c, t, rfl⟩
  rw [List.cons_append, stepAbs_seq_line a c (t ++ ['\n']) (by simpa using halpha) hseq]
  rw [show c :: (t ++ ['\n']) = (c :: t) ++ ['\n'] from by simp]
  rw [pyRstrip_append_newline _ hne hlast]

/-- The per-record round-trip induction: exporting records that satisfy the
store invariant and re-ingesting the resulting character stream appends
exactly those records after whatever was already parsed. -/
lemma create_blast_db_roundtrip_aux : ∀ rs : List SeqRecord,
    (∀ r ∈ rs, StoreRecOK r) → ∀ a : AbsState,
    absOut (List.foldl stepAbs a (fileLines (create_blast_db_fasta rs))) =
      a.out ++ (pendingList a ++ rs) := by
  intro rs
  induction rs with
  | nil =>
    intro _ a
    rw [show create_blast_db_fasta [] = [] from rfl, fileLines_nil]
    simp [absOut_eq_pending]
  | cons r rest ih =>
    intro hOK a
    obtain ⟨hfrag, hseq⟩ := hOK r (List.mem_cons_self r rest)
    have hrest : ∀ x ∈ rest, StoreRecOK x :=
      fun x hx => hOK x (List.mem_cons_of_mem r hx)
    obtain ⟨hne, halpha, hnl, hlast⟩ := hseq
    have hfasta : create_blast_db_fasta (r :: rest) =
        create_blast_db_row r ++ create_blast_db_fasta rest := by
      show (List.map create_blast_db_row (r :: rest)).flatten = _
      simp [create_blast_db_fasta]
    cases hv : r.frag with
    | intZero => rw [hv] at hfrag; exact absurd hfrag (fun h => h)
    | str f =>
      rw [hv] at hfrag
      have hH : HeaderOK f r.fragEnd := hfrag
      cases he' : r.fragEnd with
      | nil =>
        rw [he'] at hH
        obtain ⟨hfne, hflast, hfnl, hfpair⟩ := hH
        obtain ⟨core, hcore⟩ : ∃ core, f = core ++ ['\n'] := by
          refine ⟨f.dropLast, ?_⟩
          have h1 : f.getLast hfne = '\n' := by
            have h2 := List.getLastD_eq_getLast? ' ' f
            rw [List.getLast?_eq_getLast f hfne, hflast] at h2
            simpa using h2.symm
          conv_lhs => rw [← List.dropLast_append_getLast hfne]
          rw [h1]
        have hcorenl : '\n' ∉ core := by
          rw [hcore] at hfnl
          simpa using hfnl
        have hrow : create_blast_db_row r ++ create_blast_db_fasta rest =
            ('>' :: core) ++ '\n' ::
              ([] ++ '\n' :: (r.seq ++ '\n' :: create_blast_db_fasta rest)) := by
          unfold create_blast_db_row
          rw [hv, he', hcore]
          simp [fragValStr]
        have hsplit : fileLines (create_blast_db_fasta (r :: rest)) =
            ('>' :: f) :: ['\n'] :: (r.seq ++ ['\n']) ::
              fileLines (create_blast_db_fasta rest) := by
          rw [hfasta, hrow,
            fileLines_append_line _ _ (by
              intro hmem
              simp only [List.mem_cons] at hmem
              rcases hmem with h4 | h4
              · exact absurd h4.symm (by decide)
              · exact hcorenl h4),
            fileLines_append_line _ _ (by simp),
            fileLines_append_line _ _ hnl]
          rw [hcore]
          simp
        have hparse : parseHeaderRec ('>' :: f) = (FragVal.str f, []) := by
          unfold parseHeaderRec fragMatch0
          simp only [List.tail_cons]
          rw [hfpair]
        rw [hsplit]
        simp only [List.foldl_cons]
        rw [stepAbs_header_line a '>' f (by decide), hparse, stepAbs_newline_only]
        dsimp only
        rw [stepAbs_seq_append_newline _ r.seq ⟨hne, halpha, hnl, hlast⟩ rfl]
        dsimp only
        rw [List.nil_append, ih hrest]
        have hr_eq : (⟨FragVal.str f, [], r.seq⟩ : SeqRecord) = r := by
          rw [← hv, ← he']
        dsimp only
        rw [show pendingList ⟨a.out ++ pendingList a, r.seq, [], FragVal.str f, true⟩
            = [r] from by
          unfold pendingList
          rw [if_pos (by simpa using hne)]
          rw [hr_eq]]
        simp
      | cons sep etail =>
        cases etail with
        | nil =>
          rw [he'] at hH
          exact absurd hH (fun h => h)
        | cons d etail2 =>
          cases etail2 with
          | cons x etail3 =>
            rw [he'] at hH
            exact absurd hH (fun h => h)
          | nil =>
            rw [he'] at hH
            obtain ⟨hsepc, hdc, hsepnl, hfnl, hfhead⟩ := hH
            have hrow : create_blast_db_row r ++ create_blast_db_fasta rest =
                ('>' :: (f ++ [sep, d])) ++ '\n' ::
                  (r.seq ++ '\n' :: create_blast_db_fasta rest) := by
              unfold create_blast_db_row
              rw [hv, he']
              simp [fragValStr]
            have hsplit : fileLines (create_blast_db_fasta (r :: rest)) =
                ('>' :: (f ++ [sep, d, '\n'])) :: (r.seq ++ ['\n']) ::
                  fileLines (create_blast_db_fasta rest) := by
              rw [hfasta, hrow,
                fileLines_append_line _ _ (by
                  intro hmem
                  simp only [List.mem_cons, List.mem_append] at hmem
                  rcases hmem with h4 | h4 | h4
                  · exact absurd h4.symm (by decide)
                  · exact hfnl h4
                  · rcases h4 with h5 | h5 | h5
                    · exact hsepnl h5.symm
                    · exact absurd h5.symm (isOneTwo_ne_newline d hdc)
                    · simp at h5),
                fileLines_append_line _ _ hnl]
              simp
            have hparse : parseHeaderRec ('>' :: (f ++ [sep, d, '\n'])) =
                (FragVal.str f, [sep, d]) := by
              unfold parseHeaderRec
              simp only [List.tail_cons]
              rw [fragMatch0_append_sep f sep d hsepc hdc hfhead]
            rw [hsplit]
            simp only [List.foldl_cons]
            rw [stepAbs_header_line a '>' (f ++ [sep, d, '\n']) (by decide), hparse]
            dsimp only
            rw [stepAbs_seq_append_newline _ r.seq ⟨hne, halpha, hnl, hlast⟩ rfl]
            dsimp only
            rw [List.nil_append, ih hrest]
            have hr_eq : (⟨FragVal.str f, [sep, d], r.seq⟩ : SeqRecord) = r := by
              rw [← hv, ← he']
            dsimp only
            rw [show pendingList
                ⟨a.out ++ pendingList a, r.seq, [sep, d], FragVal.str f, true⟩
                = [r] from by
              unfold pendingList
              rw [if_pos (by simpa using hne)]
              rw [hr_eq]]
            simp

/-- C4: exporting a shard's records with `create_blast_db` and re-ingesting
the written FASTA file with `load_seqs` reproduces exactly the same records
— names, end tags and sequences — in the same order, for every list of
records satisfying the store invariant (the shapes ingestion actually
stores). -/
theorem create_blast_db_roundtrip (rs : List SeqRecord)
    (h : ∀ r ∈ rs, StoreRecOK r) :
    load_seqs_file (fileLines (create_blast_db_fasta rs)) = rs := by
  rw [load_seqs_file_eq]
  have haux := create_blast_db_roundtrip_aux rs h initAbs
  rw [haux]
  simp [initAbs, pendingList]

/-- Closed witness for C4: a shard with one regex-matched record (name `a`,
end `/1`) and one raw-header record (name `x.1` plus its newline). -/
theorem create_blast_db_roundtrip_witness :
    (∀ r ∈ ([⟨FragVal.str ['a'], ['/', '1'], ['A', 'C', 'G', 'T']⟩,
        ⟨FragVal.str ['x', '.', '1', '\n'], [], ['G', 'G']⟩] : List SeqRecord),
      StoreRecOK r) ∧
    load_seqs_file (fileLines (create_blast_db_fasta
        [⟨FragVal.str ['a'], ['/', '1'], ['A', 'C', 'G', 'T']⟩,
         ⟨FragVal.str ['x', '.', '1', '\n'], [], ['G', 'G']⟩])) =
      [⟨FragVal.str ['a'], ['/', '1'], ['A', 'C', 'G', 'T']⟩,
       ⟨FragVal.str ['x', '.', '1', '\n'], [], ['G', 'G']⟩] :=
  ⟨by decide,
    create_blast_db_roundtrip
      [⟨FragVal.str ['a'], ['/', '1'], ['A', 'C', 'G', 'T']⟩,
       ⟨FragVal.str ['x', '.', '1', '\n'], [], ['G', 'G']⟩] (by decide)⟩

/-!  C8: the write-then-index ordering of `__main__` in `format_sra.py`:
`create_table(DB); load_seqs(DB, CONFIG); create_index(DB);
assign_seqs_to_shards(DB, CONFIG); create_blast_dbs(CONFIG, SHARD_LIST)`.
The whole run is modelled as the ordered trace of statements issued against
the database. -/

/-- Statements a load phase may issue. -/
def isWriteEvent : DbEvent → Bool
  | DbEvent.insertBatch _ => true
  | DbEvent.commit => true
  | _ => false

/-- Byte-wise (memcmp-style) comparison used by the sqlite `ORDER BY` on
the text `frag` column. -/
def charListLE : List Char → List Char → Bool
  | [], _ => true
  | _ :: _, [] => false
  | a :: x, b :: y => if a = b then charListLE x y else decide (a < b)

def insertSorted (s : List Char) : List (List Char) → List (List Char)
  | [] => [s]
  | t :: rest =>
    if charListLE s t then s :: t :: rest else t :: insertSorted s rest

/-- The sorted name column (`SELECT frag FROM frags ORDER BY frag`). -/
def sortNames : List (List Char) → List (List Char)
  | [] => []
  | s :: rest => insertSorted s (sortNames rest)

def rowNames (rows : List SeqRecord) : List (List Char) :=
  rows.map (fun r => fragValStr r.frag)

/-- The trace of database statements issued by the `__main__` pipeline:
drop/create the table, bulk-load every file, create the index, then the
read-only partition queries and the per-shard export scans (none when the
partitioner faults and aborts the run). -/
def format_sra_main_trace (files : List (List (List Char))) (shards : Nat) :
    List DbEvent :=
  [DbEvent.dropIndex, DbEvent.dropTable, DbEvent.createTable] ++
    (files.map load_seqs_file_events).flatten ++
    [DbEvent.createIndex] ++
    ([DbEvent.selectCount, DbEvent.selectOffsets] ++
      (match assign_seqs_to_shards
          (sortNames (rowNames ((files.map load_seqs_file).flatten))) shards with
       | none => []
       | some rs => rs.map (fun _ => DbEvent.selectShard)))

lemma bulk_insert_events_write (recs : List SeqRecord) :
    ∀ e ∈ bulk_insert_events recs, isWriteEvent e = true := by
  unfold bulk_insert_events
  split
  · intro e he; simp at he
  · intro e he
    simp only [List.mem_cons, List.mem_singleton] at he
    rcases he with rfl | rfl | h
    · rfl
    · rfl
    · simp at h

lemma procLine_events (st : LoadState) (l : List Char) :
    (procLine st l).events = st.events := by
  unfold procLine
  match l with
  | [] => rfl
  | c :: rest =>
    dsimp only
    by_cases h1 : isHeaderChar c
    · rw [if_pos h1]
    · rw [if_neg h1]
      by_cases h2 : c = '+'
      · rw [if_pos h2]
      · rw [if_neg h2]
        by_cases h3 : (c.isAlpha && st.isSeq) = true
        · rw [if_pos h3]
        · rw [if_neg h3]

lemma batchFlush_events (st : LoadState) :
    ∀ e ∈ (batchFlush st).events, e ∈ st.events ∨ isWriteEvent e = true := by
  unfold batchFlush
  split
  · intro e he
    simp only [List.mem_append] at he
    rcases he with h | h
    · exact Or.inl h
    · exact Or.inr (bulk_insert_events_write _ e h)
  · intro e he
    exact Or.inl he

lemma foldl_procLineB_events (lines : List (List Char)) : ∀ st : LoadState,
    (∀ e ∈ st.events, isWriteEvent e = true) →
    ∀ e ∈ (lines.foldl procLineB st).events, isWriteEvent e = true := by
  induction lines with
  | nil => intro st h; exact h
  | cons l rest ih =>
    intro st h
    apply ih
    intro e he
    rcases batchFlush_events (procLine st l) e he with h2 | h2
    · rw [procLine_events] at h2
      exact h e h2
    · exact h2

/-- Every statement the load phase issues is an insert or a commit. -/
lemma load_seqs_file_events_write (lines : List (List Char)) :
    ∀ e ∈ load_seqs_file_events lines, isWriteEvent e = true := by
  unfold load_seqs_file_events load_seqs_state
  intro e he
  simp only [List.mem_append] at he
  rcases he with h | h
  · have hbase : ∀ x ∈ (List.foldl procLineB initLoadState lines).events,
        isWriteEvent x = true := by
      apply foldl_procLineB_events
      intro x hx
      simp [initLoadState] at hx
    split at h
    · exact hbase e h
    · exact hbase e h
  · split at h <;> exact bulk_insert_events_write _ e h

/-- Every statement issued after the index creation is a read. -/
lemma post_events_select (files : List (List (List Char))) (shards : Nat) :
    ∀ e ∈ ([DbEvent.selectCount, DbEvent.selectOffsets] ++
      (match assign_seqs_to_shards
          (sortNames (rowNames ((files.map load_seqs_file).flatten))) shards with
       | none => []
       | some rs => rs.map (fun _ => DbEvent.selectShard))),
      e = DbEvent.selectCount ∨ e = DbEvent.selectOffsets ∨
        e = DbEvent.selectShard := by
  intro e he
  rcases List.mem_append.mp he with h | h
  · simp only [List.mem_cons, List.mem_singleton] at h
    rcases h with rfl | rfl | h
    · exact Or.inl rfl
    · exact Or.inr (Or.inl rfl)
    · simp at h
  · cases hassign : assign_seqs_to_shards
        (sortNames (rowNames ((files.map load_seqs_file).flatten))) shards with
    | none => rw [hassign] at h; simp at h
    | some rs =>
      rw [hassign] at h
      obtain ⟨_, _, rfl⟩ := List.mem_map.mp h
      exact Or.inr (Or.inr rfl)

/-- C8: in the pipeline trace the index creation happens exactly once, all
insert/commit statements precede it, and nothing after it writes: the
sorted index is built only after the final ingestion batch is committed,
and the store is write-closed afterwards (the partitioner and shard
builders only run SELECTs), so ranks are stable for all their queries. -/
theorem format_sra_write_then_index (files : List (List (List Char)))
    (shards : Nat) :
    ∃ pre post, format_sra_main_trace files shards =
        pre ++ DbEvent.createIndex :: post ∧
      DbEvent.createIndex ∉ pre ∧ DbEvent.createIndex ∉ post ∧
      (∀ n, DbEvent.insertBatch n ∉ post) ∧ DbEvent.commit ∉ post := by
  refine ⟨[DbEvent.dropIndex, DbEvent.dropTable, DbEvent.createTable] ++
      (files.map load_seqs_file_events).flatten,
    [DbEvent.selectCount, DbEvent.selectOffsets] ++
      (match assign_seqs_to_shards
          (sortNames (rowNames ((files.map load_seqs_file).flatten))) shards with
       | none => []
       | some rs => rs.map (fun _ => DbEvent.selectShard)), ?_, ?_, ?_, ?_, ?_⟩
  · unfold format_sra_main_trace
    simp
  · intro hmem
    rcases List.mem_append.mp hmem with h | h
    · simp only [List.mem_cons, List.mem_singleton] at h
      rcases h with h | h | h | h
      · exact DbEvent.noConfusion h
      · exact DbEvent.noConfusion h
      · exact DbEvent.noConfusion h
      · simp at h
    · obtain ⟨l, hl, he⟩ := List.mem_flatten.mp h
      obtain ⟨f, _, rfl⟩ := List.mem_map.mp hl
      have := load_seqs_file_events_write f _ he
      simp [isWriteEvent] at this
  · intro hmem
    rcases post_events_select files shards _ hmem with h | h | h <;>
      exact DbEvent.noConfusion h
  · intro n hmem
    rcases post_events_select files shards _ hmem with h | h | h <;>
      exact DbEvent.noConfusion h
  · intro hmem
    rcases post_events_select files shards _ hmem with h | h | h <;>
      exact DbEvent.noConfusion h

end ATram
